import Mathlib

set_option maxRecDepth 8000

/-!
Verification of the local binary acquisition and cache system of
`treefmt-pre-commit` (`src/treefmt_pre_commit/__main__.py`).

The Python module is shallowly embedded here:

* `get_platform_info`, `get_cache_dir` are pure functions of the host
  introspection values and the environment, embedded directly.
* `wait_for_lock` is embedded with an explicit discrete clock (time in
  milliseconds): poll `k` happens at elapsed time `100 * k` ms, matching the
  `time.sleep(0.1)` poll interval and the 60-second `LOCK_TIMEOUT`.
* `download_treefmt` is embedded twice:
  - a sequential, single-process embedding (`download_treefmt`) in which every
    outcome decided by the outside world (existence probes, lock acquisition,
    network fetch, archive member lookup, write/chmod/rename) is supplied by an
    `Oracle`, and the function reports which filesystem effects it performed;
  - a concurrent embedding (namespace `Concurrent`) in which `N` processes each
    run the same program over a shared filesystem (lock file, binary, cache
    directory, staging file) under an arbitrary interleaving schedule, used for
    the mutual-exclusion claims.

Paths are modelled as lists of path segments (`List String`).
-/

/-- The pinned artifact version (`TREEFMT_VERSION = "2.4.0"`). -/
def TREEFMT_VERSION : String := "2.4.0"

/-- `LOCK_TIMEOUT = 60` seconds, expressed in milliseconds. -/
def LOCK_TIMEOUT_MS : Nat := 60000

/-- The `time.sleep(0.1)` poll interval of `wait_for_lock`, in milliseconds. -/
def POLL_INTERVAL_MS : Nat := 100

/-- Environment and host facts read by `get_cache_dir`:
`os.environ.get("XDG_CACHE_HOME")`, `os.environ.get("LOCALAPPDATA")`,
`sys.platform` and `Path.home()` (the latter as path segments). -/
structure Env where
  xdg_cache_home : Option String
  localappdata : Option String
  sys_platform : String
  home : List String
deriving DecidableEq, Repr

/-- The platform-specific cache root selected when `XDG_CACHE_HOME` is absent
or empty: the `elif sys.platform == ...` chain of `get_cache_dir`.
`os.environ.get("LOCALAPPDATA", Path.home() / "AppData" / "Local")` uses the
default only when the variable is unset (no truthiness test there). -/
def defaultCacheRoot (e : Env) : List String :=
  if e.sys_platform = "darwin" then e.home ++ ["Library", "Caches"]
  else if e.sys_platform = "win32" then
    match e.localappdata with
    | some s => [s]
    | none => e.home ++ ["AppData", "Local"]
  else e.home ++ [".cache"]

/-- `get_cache_dir`: the walrus test `if cache_home := os.environ.get(...)`
uses Python truthiness, so an empty string falls through to the
platform-specific root. The result is `<root>/treefmt-pre-commit/<version>`. -/
def get_cache_dir (e : Env) : List String :=
  let cache_dir :=
    match e.xdg_cache_home with
    | some s => if s = "" then defaultCacheRoot e else [s]
    | none => defaultCacheRoot e
  cache_dir ++ ["treefmt-pre-commit", TREEFMT_VERSION]

/-- Python `str.lower()` (character-wise lowercasing), written so that it
evaluates by kernel reduction. -/
def pyLower (s : String) : String := String.mk (s.data.map Char.toLower)

/-- `get_platform_info`, as a function of the raw `platform.system()` and
`platform.machine()` strings. The code lowercases both, returns one of four
pairs, and otherwise raises `RuntimeError(f"Unsupported platform: {system}
{machine}")`; the error is modelled as carrying the two strings interpolated
into that message, i.e. the lowercased ones. -/
def get_platform_info (systemRaw machineRaw : String) :
    Except (String × String) (String × String) :=
  if pyLower systemRaw = "darwin" then
    if pyLower machineRaw = "arm64" then .ok ("darwin", "arm64")
    else .ok ("darwin", "amd64")
  else if pyLower systemRaw = "linux" then
    if pyLower machineRaw = "aarch64" then .ok ("linux", "arm64")
    else if pyLower machineRaw = "x86_64" ∨ pyLower machineRaw = "amd64" then
      .ok ("linux", "amd64")
    else .error (pyLower systemRaw, pyLower machineRaw)
  else .error (pyLower systemRaw, pyLower machineRaw)

/-- The closed enumeration of supported (os, arch) pairs. -/
def supportedPlatforms : List (String × String) :=
  [("darwin", "arm64"), ("darwin", "amd64"), ("linux", "arm64"), ("linux", "amd64")]

/-- The observable outcome of `main`: either `sys.exit(1)` after printing a
message to stderr, or `os.execv(binary_path, [str(binary_path)] + sys.argv[1:])`
replacing the process image. -/
inductive MainAction where
  | exitWithError (code : Nat) (stderrMsg : String)
  | exec (binary : List String) (argvPassed : List String)
deriving DecidableEq, Repr

/-- `str(binary_path)`: render a segment-list path the way `os.execv` receives
its first argument vector entry. -/
def pathToString (p : List String) : String := String.intercalate "/" p

/-- `main`, as a function of the outcome of `download_treefmt` (either a raised
error message or the returned binary path) and of `sys.argv`. -/
def main_dispatch (dl : Except String (List String)) (argv : List String) :
    MainAction :=
  match dl with
  | .error e => .exitWithError 1 ("Error: " ++ e)
  | .ok p => .exec p (pathToString p :: argv.drop 1)

/-- C7 (amended): `get_platform_info` either returns a pair from the closed
enumeration {(darwin, arm64), (darwin, amd64), (linux, arm64), (linux, amd64)}
or raises an unsupported-platform error carrying the lowercase-normalized
system and machine strings; in particular ("plan9", "mips") raises the error
carrying exactly those strings. The embedding is a pure function, so the call
has no side effects. -/
theorem platform_resolution_total (s m : String) :
    ((∃ p, get_platform_info s m = .ok p ∧ p ∈ supportedPlatforms) ∨
      get_platform_info s m = .error (pyLower s, pyLower m)) ∧
    get_platform_info "plan9" "mips" = .error ("plan9", "mips") := by
  constructor
  · unfold get_platform_info
    split_ifs
    · exact Or.inl ⟨("darwin", "arm64"), rfl, by simp [supportedPlatforms]⟩
    · exact Or.inl ⟨("darwin", "amd64"), rfl, by simp [supportedPlatforms]⟩
    · exact Or.inl ⟨("linux", "arm64"), rfl, by simp [supportedPlatforms]⟩
    · exact Or.inl ⟨("linux", "amd64"), rfl, by simp [supportedPlatforms]⟩
    · exact Or.inr rfl
    · exact Or.inr rfl
  · rfl

/-- C7 counterexample: the claim says the error carries the *raw* system and
machine strings, but the code lowercases them before interpolating them into
the error: on the host pair ("Plan9", "mips") the raised error carries
("plan9", "mips"), which differs from the raw pair. -/
theorem platform_error_not_raw :
    get_platform_info "Plan9" "mips" = .error ("plan9", "mips") ∧
    ("plan9", "mips") ≠ (("Plan9" : String), ("mips" : String)) := by
  refine ⟨rfl, by decide⟩

/-- C10: when the lowercased host system is "darwin", `get_platform_info`
never raises; every machine whose lowercase form is not "arm64" (including
unrecognized ones such as "i386") is mapped to ("darwin", "amd64"); and the
unsupported-platform error is reachable only when the host is neither darwin
nor a supported linux pair. -/
theorem darwin_never_raises (s m : String) (hs : pyLower s = "darwin") :
    (∃ p, get_platform_info s m = .ok p) ∧
    (pyLower m ≠ "arm64" → get_platform_info s m = .ok ("darwin", "amd64")) ∧
    (∀ sys mach er, get_platform_info sys mach = .error er →
      pyLower sys ≠ "darwin" ∧
      ¬(pyLower sys = "linux" ∧
        (pyLower mach = "aarch64" ∨ pyLower mach = "x86_64" ∨
          pyLower mach = "amd64"))) := by
  refine ⟨?_, ?_, ?_⟩
  · unfold get_platform_info
    rw [if_pos hs]
    split
    · exact ⟨("darwin", "arm64"), rfl⟩
    · exact ⟨("darwin", "amd64"), rfl⟩
  · intro hm
    unfold get_platform_info
    rw [if_pos hs, if_neg hm]
  · intro sys mach er her
    unfold get_platform_info at her
    split_ifs at her with h1 h2 h3 h4 h5
    · refine ⟨h1, ?_⟩
      rintro ⟨-, hm' | hm' | hm'⟩
      · exact h4 hm'
      · exact h5 (Or.inl hm')
      · exact h5 (Or.inr hm')
    · exact ⟨h1, fun hc => h3 hc.1⟩

/-- Witness for C10 at a concrete input: "i386" on darwin maps to amd64. -/
theorem darwin_never_raises_witness :
    get_platform_info "darwin" "i386" = .ok ("darwin", "amd64") :=
  (darwin_never_raises "darwin" "i386" (by decide)).2.1 (by decide)

/-- C8 (amended): `get_cache_dir` is deterministic and returns
`<cache-root>/treefmt-pre-commit/<version>`, where the cache root is the
`XDG_CACHE_HOME` override when it is set *to a non-empty string*; when the
variable is unset, or set to the empty string (Python truthiness), the per-OS
conventional cache root is used instead. -/
theorem cache_dir_resolution (e : Env) :
    (∀ s, e.xdg_cache_home = some s → s ≠ "" →
      get_cache_dir e = [s, "treefmt-pre-commit", TREEFMT_VERSION]) ∧
    ((e.xdg_cache_home = none ∨ e.xdg_cache_home = some "") →
      get_cache_dir e = defaultCacheRoot e ++ ["treefmt-pre-commit", TREEFMT_VERSION]) := by
  constructor
  · intro s hs hne
    simp [get_cache_dir, hs, hne]
  · rintro (h | h) <;> simp [get_cache_dir, h]

/-- Witness for C8 at a concrete environment with a non-empty override. -/
theorem cache_dir_resolution_witness :
    get_cache_dir ⟨some "/xdg", none, "linux", ["/home/u"]⟩ =
      ["/xdg", "treefmt-pre-commit", TREEFMT_VERSION] :=
  (cache_dir_resolution ⟨some "/xdg", none, "linux", ["/home/u"]⟩).1 "/xdg" rfl
    (by decide)

/-- C8 counterexample: `XDG_CACHE_HOME` set to the empty string is *set* but
is not honored as the cache root — the walrus truthiness test skips it and the
per-OS default (`~/.cache` on linux) is used instead. -/
theorem cache_dir_empty_override_ignored :
    get_cache_dir ⟨some "", none, "linux", ["/home/u"]⟩ =
      ["/home/u", ".cache", "treefmt-pre-commit", TREEFMT_VERSION] ∧
    get_cache_dir ⟨some "", none, "linux", ["/home/u"]⟩ ≠
      ["", "treefmt-pre-commit", TREEFMT_VERSION] := by
  refine ⟨rfl, by decide⟩

/-- C9: if `download_treefmt` raises, `main` prints `Error: <e>` to stderr and
exits with status 1, never reaching `os.execv`; if it succeeds, `main`
replaces the process image with the resolved binary, passing
`[str(binary_path)] + sys.argv[1:]` — all arguments after the program name are
forwarded unchanged. -/
theorem dispatcher_behavior (dl : Except String (List String)) (argv : List String) :
    (∀ e, dl = .error e →
      main_dispatch dl argv = .exitWithError 1 ("Error: " ++ e) ∧
      ∀ b a, main_dispatch dl argv ≠ .exec b a) ∧
    (∀ p, dl = .ok p →
      main_dispatch dl argv = .exec p (pathToString p :: argv.drop 1) ∧
      ∀ b a, main_dispatch dl argv = .exec b a → b = p ∧ a.drop 1 = argv.drop 1) := by
  constructor
  · intro e he
    subst he
    exact ⟨rfl, by intro b a h; simp [main_dispatch] at h⟩
  · intro p hp
    subst hp
    refine ⟨rfl, ?_⟩
    intro b a h
    simp only [main_dispatch, MainAction.exec.injEq] at h
    exact ⟨h.1.symm, by rw [← h.2]; simp⟩

/-- Witness for C9 at concrete inputs, both the error and the success case. -/
theorem dispatcher_behavior_witness :
    main_dispatch (.error "boom") ["prog", "-x"] = .exitWithError 1 "Error: boom" ∧
    main_dispatch (.ok ["/c", "treefmt"]) ["prog", "-x"] =
      .exec ["/c", "treefmt"] ["/c/treefmt", "-x"] :=
  ⟨((dispatcher_behavior (.error "boom") ["prog", "-x"]).1 "boom" rfl).1,
    ((dispatcher_behavior (.ok ["/c", "treefmt"]) ["prog", "-x"]).2
      ["/c", "treefmt"] rfl).1⟩

deriving instance DecidableEq for Except

/-- The final binary path `cache_dir / "treefmt"`. -/
def binaryPath (e : Env) : List String := get_cache_dir e ++ ["treefmt"]

/-- The lock marker path `cache_dir / ".treefmt.lock"`. -/
def lockPath (e : Env) : List String := get_cache_dir e ++ [".treefmt.lock"]

/-- The poll loop of `wait_for_lock`, with an explicit discrete clock: poll `k`
happens at elapsed time `100 * k` milliseconds (`time.sleep(0.1)` between
polls). The loop body follows the source order: probe the lock's existence;
if absent, return; if the elapsed time strictly exceeds `LOCK_TIMEOUT`, raise
(modelled as `.error` carrying the elapsed time); otherwise sleep and poll
again. `lockAt k` is the lock file's existence at poll `k`, an
environment-controlled input. The `fuel` argument only bounds the recursion;
`wait_for_lock` instantiates it so the zero-fuel fallback (which answers
exactly as the code would at that poll) is never reached. -/
def waitFrom (lockAt : Nat → Bool) : Nat → Nat → Except Nat Nat
  | 0, k =>
    if lockAt k then .error (POLL_INTERVAL_MS * k) else .ok (POLL_INTERVAL_MS * k)
  | fuel + 1, k =>
    if lockAt k = false then .ok (POLL_INTERVAL_MS * k)
    else if POLL_INTERVAL_MS * k > LOCK_TIMEOUT_MS then .error (POLL_INTERVAL_MS * k)
    else waitFrom lockAt fuel (k + 1)

/-- `wait_for_lock`: `.ok t` means the lock disappeared and the loop exited at
elapsed time `t` ms; `.error t` means the `RuntimeError(f"Timeout waiting for
lock: {lock_path}")` was raised at elapsed time `t` ms. 602 polls cover every
poll index the loop can reach (`100 * 601 > 60000` forces the raise). -/
def wait_for_lock (lockAt : Nat → Bool) : Except Nat Nat := waitFrom lockAt 602 0

/-- Errors raised out of `download_treefmt`, one constructor per raise site. -/
inductive DlErr where
  | lockTimeout (lock : List String)
  | acquireFailedAfterWait
  | downloadFailed (cause : String)
  | extractFailed (cause : String)
deriving DecidableEq, Repr

/-- Environment-controlled outcomes of the probes and fallible operations a
single `download_treefmt` call performs, in source order: the fast-path
existence check, the first `acquire_lock`, the lock's existence at each poll
of `wait_for_lock`, the post-wait existence check, the second `acquire_lock`,
the double-check under the lock, and the outcomes of `urlopen`/`read`,
`tar.getmember`, `tar.extractfile`, the staging-file write, `os.chmod`, and
the final rename (`.error m` is an exception with message `m`). -/
structure Oracle where
  binaryExists1 : Bool
  acquire1 : Bool
  lockAt : Nat → Bool
  binaryExists2 : Bool
  acquire2 : Bool
  binaryExists3 : Bool
  fetch : Except String Unit
  getmember : Except String Unit
  extractfile : Except String Unit
  writeTmp : Except String Unit
  chmodTmp : Except String Unit
  renameTmp : Except String Unit

/-- What one `download_treefmt` call returned and which filesystem effects it
performed. `ourLockLeft` is true when a lock file created by this call still
exists on exit; `tmpLeft` when the staging file still exists on exit;
`binCreated` when the staging file was renamed onto the binary path;
`binaryPresentAtReturn` when, on success, the binary was observed or created
at the returned path. -/
structure DlResult where
  res : Except DlErr (List String)
  enteredFetching : Bool
  ourLockLeft : Bool
  dirCreated : Bool
  fetched : Bool
  tmpLeft : Bool
  binCreated : Bool
  binaryPresentAtReturn : Bool
deriving DecidableEq, Repr

/-- The body of the `try` block of `download_treefmt` (the Fetching state):
double-check the binary, then download, extract to the staging file, chmod,
and atomically rename. Every failure arm models the `except` cleanup
`if temp_path.exists(): temp_path.unlink()` — hence `tmpLeft = false` — and the
wrapping of the cause as `RuntimeError("Failed to download treefmt: ...")`
(before the staging block) or `RuntimeError("Failed to extract treefmt: ...")`
(inside it). The lock release of the enclosing `finally` is applied by the
caller. -/
def fetchingBody (e : Env) (o : Oracle) : Except DlErr (List String) × Bool × Bool × Bool × Bool :=
  if o.binaryExists3 then (.ok (binaryPath e), false, false, false, true)
  else
    match o.fetch with
    | .error m => (.error (.downloadFailed m), true, false, false, false)
    | .ok _ =>
      match o.getmember with
      | .error m => (.error (.extractFailed m), true, false, false, false)
      | .ok _ =>
        match o.extractfile with
        | .error m => (.error (.extractFailed m), true, false, false, false)
        | .ok _ =>
          match o.writeTmp with
          | .error m => (.error (.extractFailed m), true, false, false, false)
          | .ok _ =>
            match o.chmodTmp with
            | .error m => (.error (.extractFailed m), true, false, false, false)
            | .ok _ =>
              match o.renameTmp with
              | .error m => (.error (.extractFailed m), true, false, false, false)
              | .ok _ => (.ok (binaryPath e), true, false, true, true)

/-- `download_treefmt`, sequential embedding. The tuple returned by
`fetchingBody` is `(result, fetched, tmpLeft, binCreated,
binaryPresentAtReturn)`; the caller records `enteredFetching = true` and
`ourLockLeft = false` on those paths (the `finally: release_lock(lock_path)`
runs on every exit from the `try` block, and `release_lock` swallows
`FileNotFoundError`). The timeout error of `wait_for_lock` propagates,
carrying the lock path as in `f"Timeout waiting for lock: {lock_path}"`. -/
def download_treefmt (e : Env) (o : Oracle) : DlResult :=
  if o.binaryExists1 then
    ⟨.ok (binaryPath e), false, false, false, false, false, false, true⟩
  else
    if o.acquire1 then
      let b := fetchingBody e o
      ⟨b.1, true, false, true, b.2.1, b.2.2.1, b.2.2.2.1, b.2.2.2.2⟩
    else
      match wait_for_lock o.lockAt with
      | .error _ =>
        ⟨.error (.lockTimeout (lockPath e)), false, false, true, false, false, false, false⟩
      | .ok _ =>
        if o.binaryExists2 then
          ⟨.ok (binaryPath e), false, false, true, false, false, false, true⟩
        else if o.acquire2 then
          let b := fetchingBody e o
          ⟨b.1, true, false, true, b.2.1, b.2.2.1, b.2.2.2.1, b.2.2.2.2⟩
        else
          ⟨.error .acquireFailedAfterWait, false, false, true, false, false, false, false⟩

/-- Pointwise-equal lock traces give the same wait outcome. -/
theorem waitFrom_ext (f g : Nat → Bool) (h : ∀ j, f j = g j) :
    ∀ fuel k, waitFrom f fuel k = waitFrom g fuel k := by
  intro fuel
  induction fuel with
  | zero => intro k; unfold waitFrom; rw [h k]
  | succ n ih => intro k; unfold waitFrom; rw [h k, ih (k + 1)]

/-- The wait loop always terminates, with an exit or raise time of at most
`LOCK_TIMEOUT + one poll interval`, provided the starting poll is within that
bound. -/
theorem waitFrom_bounded (f : Nat → Bool) :
    ∀ fuel k, POLL_INTERVAL_MS * k ≤ LOCK_TIMEOUT_MS + POLL_INTERVAL_MS →
      ∃ t, ((waitFrom f fuel k = .ok t) ∨ (waitFrom f fuel k = .error t)) ∧
        t ≤ LOCK_TIMEOUT_MS + POLL_INTERVAL_MS := by
  intro fuel
  induction fuel with
  | zero =>
    intro k hk
    unfold waitFrom
    by_cases hf : f k = true
    · rw [if_pos hf]; exact ⟨_, Or.inr rfl, hk⟩
    · rw [if_neg hf]; exact ⟨_, Or.inl rfl, hk⟩
  | succ n ih =>
    intro k hk
    unfold waitFrom
    by_cases hf : f k = false
    · rw [if_pos hf]; exact ⟨_, Or.inl rfl, hk⟩
    · rw [if_neg hf]
      by_cases ht : POLL_INTERVAL_MS * k > LOCK_TIMEOUT_MS
      · rw [if_pos ht]; exact ⟨_, Or.inr rfl, hk⟩
      · rw [if_neg ht]
        apply ih
        simp only [POLL_INTERVAL_MS, LOCK_TIMEOUT_MS] at *
        omega

/-- Structure of the Fetching body: either it succeeds returning the binary
path with the binary present, or it fails with a wrapped download/extract
error having created no binary; the staging file never survives. -/
theorem fetchingBody_shape (e : Env) (o : Oracle) :
    ((fetchingBody e o).1 = .ok (binaryPath e) ∧ (fetchingBody e o).2.2.2.2 = true ∨
      (∃ m, ((fetchingBody e o).1 = .error (.downloadFailed m) ∨
          (fetchingBody e o).1 = .error (.extractFailed m)) ∧
        (fetchingBody e o).2.2.2.1 = false)) ∧
    (fetchingBody e o).2.2.1 = false := by
  unfold fetchingBody
  split_ifs
  · exact ⟨Or.inl ⟨rfl, rfl⟩, rfl⟩
  · rcases o.fetch with m | -
    · exact ⟨Or.inr ⟨m, Or.inl rfl, rfl⟩, rfl⟩
    · rcases o.getmember with m | -
      · exact ⟨Or.inr ⟨m, Or.inr rfl, rfl⟩, rfl⟩
      · rcases o.extractfile with m | -
        · exact ⟨Or.inr ⟨m, Or.inr rfl, rfl⟩, rfl⟩
        · rcases o.writeTmp with m | -
          · exact ⟨Or.inr ⟨m, Or.inr rfl, rfl⟩, rfl⟩
          · rcases o.chmodTmp with m | -
            · exact ⟨Or.inr ⟨m, Or.inr rfl, rfl⟩, rfl⟩
            · rcases o.renameTmp with m | -
              · exact ⟨Or.inr ⟨m, Or.inr rfl, rfl⟩, rfl⟩
              · exact ⟨Or.inl ⟨rfl, rfl⟩, rfl⟩

/-- A concrete environment used for the closed witnesses/counterexamples. -/
def envLinux : Env := ⟨none, none, "linux", ["/home/u"]⟩

/-- Oracle: peer holds the lock forever, binary never appears. -/
def oLockedForever : Oracle :=
  ⟨false, false, fun _ => true, false, false, false, .ok (), .ok (), .ok (), .ok (), .ok (), .ok ()⟩

/-- Oracle: empty cache, lock acquired first try, rename fails. -/
def oRenameFail : Oracle :=
  ⟨false, true, fun _ => false, false, false, false, .ok (), .ok (), .ok (), .ok (), .ok (), .error "boom"⟩

/-- Oracle: lock held at the first acquire, released at the second poll,
binary still absent, second acquire loses the race again. -/
def oRecovery : Oracle :=
  ⟨false, false, fun k => k == 0, false, false, false, .ok (), .ok (), .ok (), .ok (), .ok (), .ok ()⟩

/-- Like `oRecovery` but the second acquire succeeds. -/
def oRecovery2 : Oracle :=
  ⟨false, false, fun k => k == 0, false, true, false, .ok (), .ok (), .ok (), .ok (), .ok (), .ok ()⟩

/-- Oracle: the binary is already cached (warm invocation). -/
def oWarm : Oracle :=
  ⟨true, false, fun _ => false, false, false, false, .ok (), .ok (), .ok (), .ok (), .ok (), .ok ()⟩

/-- C5 counterexample: with the lock present at every poll, the timeout error
is raised at elapsed time `LOCK_TIMEOUT + one poll interval` (60.1 s), which
is strictly *later* than the configured bound of 60 s — the loop only raises
at the first poll whose elapsed time strictly exceeds the bound. -/
theorem lock_timeout_exceeds_bound :
    wait_for_lock (fun _ => true) = .error (LOCK_TIMEOUT_MS + POLL_INTERVAL_MS) ∧
    LOCK_TIMEOUT_MS + POLL_INTERVAL_MS > LOCK_TIMEOUT_MS :=
  ⟨rfl, by decide⟩

/-- C5 (amended): if the lock file is present at the start and never removed,
`wait_for_lock` raises its timeout error no later than the configured bound
*plus one poll interval* (at 60.1 s with the 60 s bound and 100 ms interval) —
never waiting unboundedly — and `download_treefmt` propagates that failure as
the timeout error naming the lock path; moreover for every lock trace the
wait loop terminates within the bound plus one interval. -/
theorem lock_timeout_bounded (e : Env) (o : Oracle) (f : Nat → Bool)
    (hf : ∀ k, f k = true) (h1 : o.binaryExists1 = false)
    (h2 : o.acquire1 = false) (ho : ∀ k, o.lockAt k = true) :
    wait_for_lock f = .error (LOCK_TIMEOUT_MS + POLL_INTERVAL_MS) ∧
    (download_treefmt e o).res = .error (.lockTimeout (lockPath e)) ∧
    (∀ g : Nat → Bool, ∃ t,
      ((wait_for_lock g = .ok t) ∨ (wait_for_lock g = .error t)) ∧
      t ≤ LOCK_TIMEOUT_MS + POLL_INTERVAL_MS) := by
  have hwf : ∀ g : Nat → Bool, (∀ k, g k = true) →
      wait_for_lock g = .error (LOCK_TIMEOUT_MS + POLL_INTERVAL_MS) := by
    intro g hg
    unfold wait_for_lock
    rw [waitFrom_ext g (fun _ => true) (fun j => hg j) 602 0]
    rfl
  refine ⟨hwf f hf, ?_, ?_⟩
  · simp [download_treefmt, h1, h2, hwf o.lockAt ho]
  · intro g
    exact waitFrom_bounded g 602 0 (by simp [POLL_INTERVAL_MS, LOCK_TIMEOUT_MS])

/-- Witness for C5 at a concrete oracle with an ever-present lock. -/
theorem lock_timeout_bounded_witness :
    (download_treefmt envLinux oLockedForever).res =
      .error (.lockTimeout (lockPath envLinux)) :=
  (lock_timeout_bounded envLinux oLockedForever (fun _ => true) (fun _ => rfl) rfl rfl
    (fun _ => rfl)).2.1

/-- C4: when the binary already exists at the expected cache path,
`download_treefmt` returns that path immediately: no network fetch, the lock
file is never created, the cache directory is not created, and no staging file
or binary write occurs; moreover every successful call returns the same
deterministic path with the binary present there, so a repeat call is a cheap
no-op returning the identical path. -/
theorem warm_cache_fast_path (e : Env) (o : Oracle) (h : o.binaryExists1 = true) :
    download_treefmt e o =
      ⟨.ok (binaryPath e), false, false, false, false, false, false, true⟩ ∧
    ∀ o' r, (download_treefmt e o').res = .ok r →
      r = binaryPath e ∧ (download_treefmt e o').binaryPresentAtReturn = true := by
  constructor
  · simp [download_treefmt, h]
  · intro o' r hr
    unfold download_treefmt at hr ⊢
    by_cases hb : o'.binaryExists1 = true
    · simp only [hb, if_pos rfl] at hr ⊢
      exact ⟨(Except.ok.injEq _ _ ▸ hr).symm ▸ rfl, rfl⟩
    · simp only [hb] at hr ⊢
      by_cases ha : o'.acquire1 = true
      · simp only [ha, if_pos rfl, if_neg hb] at hr ⊢
        rcases (fetchingBody_shape e o').1 with ⟨hok, hbin⟩ | ⟨m, herr, -⟩
        · rw [hok] at hr
          exact ⟨(Except.ok.injEq _ _ ▸ hr).symm ▸ rfl, hbin⟩
        · rcases herr with herr | herr <;> rw [herr] at hr <;> exact absurd hr (by simp)
      · simp only [ha, if_neg hb] at hr ⊢
        rcases hw : wait_for_lock o'.lockAt with t | t
        · simp only [hw] at hr ⊢
          exact absurd hr (by simp)
        · simp only [hw] at hr ⊢
          by_cases hb2 : o'.binaryExists2 = true
          · simp only [hb2, if_pos rfl] at hr ⊢
            exact ⟨(Except.ok.injEq _ _ ▸ hr).symm ▸ rfl, rfl⟩
          · simp only [hb2] at hr ⊢
            by_cases ha2 : o'.acquire2 = true
            · simp only [ha2, if_pos rfl] at hr ⊢
              rcases (fetchingBody_shape e o').1 with ⟨hok, hbin⟩ | ⟨m, herr, -⟩
              · rw [hok] at hr
                exact ⟨(Except.ok.injEq _ _ ▸ hr).symm ▸ rfl, hbin⟩
              · rcases herr with herr | herr <;> rw [herr] at hr <;>
                  exact absurd hr (by simp)
            · simp only [ha2] at hr ⊢
              exact absurd hr (by simp)

/-- Witness for C4 at a concrete warm-cache oracle. -/
theorem warm_cache_fast_path_witness :
    download_treefmt envLinux oWarm =
      ⟨.ok (binaryPath envLinux), false, false, false, false, false, false, true⟩ :=
  (warm_cache_fast_path envLinux oWarm rfl).1

/-- C2: for every failure during fetch, write, or rename inside the Fetching
state (the call acquired the lock and the install attempt did not succeed),
the staging file does not survive, no binary artifact becomes visible at the
final path, the error propagates wrapped at one of the two wrap sites
("Failed to download treefmt" / "Failed to extract treefmt"), and the lock is
still released. -/
theorem install_failure_cleanup (e : Env) (o : Oracle)
    (henter : (download_treefmt e o).enteredFetching = true)
    (hfail : ∃ er, (download_treefmt e o).res = .error er) :
    (∃ m, (download_treefmt e o).res = .error (.downloadFailed m) ∨
      (download_treefmt e o).res = .error (.extractFailed m)) ∧
    (download_treefmt e o).tmpLeft = false ∧
    (download_treefmt e o).binCreated = false ∧
    (download_treefmt e o).ourLockLeft = false := by
  obtain ⟨er, her⟩ := hfail
  unfold download_treefmt at henter her ⊢
  by_cases hb : o.binaryExists1 = true
  · simp only [hb, if_pos rfl] at henter
    exact absurd henter (by simp)
  · simp only [hb] at henter her ⊢
    by_cases ha : o.acquire1 = true
    · simp only [ha, if_pos rfl] at henter her ⊢
      rcases (fetchingBody_shape e o) with ⟨⟨hok, -⟩ | ⟨m, herr, hbc⟩, htmp⟩
      · rw [hok] at her; exact absurd her (by simp)
      · exact ⟨⟨m, herr⟩, htmp, hbc, rfl⟩
    · simp only [ha] at henter her ⊢
      rcases hw : wait_for_lock o.lockAt with t | t
      · simp only [hw] at henter
        exact absurd henter (by simp)
      · simp only [hw] at henter her ⊢
        by_cases hb2 : o.binaryExists2 = true
        · simp only [hb2, if_pos rfl] at henter
          exact absurd henter (by simp)
        · simp only [hb2] at henter her ⊢
          by_cases ha2 : o.acquire2 = true
          · simp only [ha2, if_pos rfl] at henter her ⊢
            rcases (fetchingBody_shape e o) with ⟨⟨hok, -⟩ | ⟨m, herr, hbc⟩, htmp⟩
            · rw [hok] at her; exact absurd her (by simp)
            · exact ⟨⟨m, herr⟩, htmp, hbc, rfl⟩
          · simp only [ha2] at henter
            exact absurd henter (by simp)

/-- Witness for C2 at a concrete oracle whose rename step fails. -/
theorem install_failure_cleanup_witness :
    (download_treefmt envLinux oRenameFail).tmpLeft = false ∧
    (download_treefmt envLinux oRenameFail).binCreated = false ∧
    (download_treefmt envLinux oRenameFail).res = .error (.extractFailed "boom") :=
  ⟨(install_failure_cleanup envLinux oRenameFail rfl ⟨.extractFailed "boom", rfl⟩).2.1,
    (install_failure_cleanup envLinux oRenameFail rfl ⟨.extractFailed "boom", rfl⟩).2.2.1,
    rfl⟩

/-- C6 (amended): when the waiting state observes the lock disappear while the
binary is still absent, the coordinator attempts lock acquisition exactly once
more: on success it proceeds into the Fetching state; on an already-exists
outcome it fails *immediately* with the "Failed to acquire lock after waiting"
error — it does not go back to the Waiting state. -/
theorem wait_recovery_single_retry (e : Env) (o : Oracle)
    (h1 : o.binaryExists1 = false) (h2 : o.acquire1 = false)
    (h3 : ∃ t, wait_for_lock o.lockAt = .ok t) (h4 : o.binaryExists2 = false) :
    (o.acquire2 = true → (download_treefmt e o).enteredFetching = true) ∧
    (o.acquire2 = false → download_treefmt e o =
      ⟨.error .acquireFailedAfterWait, false, false, true, false, false, false, false⟩) := by
  obtain ⟨t, ht⟩ := h3
  constructor <;> intro ha <;> simp [download_treefmt, h1, h2, ht, h4, ha]

/-- Witness for C6: successful second acquisition enters Fetching. -/
theorem wait_recovery_single_retry_witness :
    (download_treefmt envLinux oRecovery2).enteredFetching = true :=
  (wait_recovery_single_retry envLinux oRecovery2 rfl rfl ⟨100, rfl⟩ rfl).1 rfl

/-- C6 counterexample: the lock disappears during waiting, the binary is
absent, and the retried acquisition loses the race — the call fails
immediately with the lock-acquisition error instead of transitioning back to
the Waiting state as claimed. -/
theorem wait_recovery_failure_immediate :
    (download_treefmt envLinux oRecovery).res = .error .acquireFailedAfterWait :=
  rfl

namespace Concurrent

/-- Which return site of `download_treefmt` produced a successful result:
the fast path (line-88 check), the waiting path (post-wait check), the
double-check under the lock, or the full fetch-and-install path. -/
inductive RTag where
  | fastPath
  | waitingPath
  | doubleCheck
  | fetcher
deriving DecidableEq, Repr

/-- Terminal outcome of one process: a returned path (with its return site),
the wait-loop timeout error, or the "Failed to acquire lock after waiting"
error. -/
inductive POut where
  | path (tag : RTag) (p : List String)
  | timeout
  | acqFail
deriving DecidableEq, Repr

/-- Program counter of one process running `download_treefmt`, one point per
observable filesystem operation of the source: the fast-path existence check,
`mkdir`, the first `acquire_lock`, the `wait_for_lock` poll loop (with the
remaining poll budget), the post-wait existence check, the second
`acquire_lock`, then under the lock the double-check, the `urlopen` fetch, the
staging-file write, the atomic rename, and the `finally` lock release (one
release point per way of reaching it). -/
inductive PC where
  | check
  | mkdirStep
  | acquireStep
  | waitPoll (fuel : Nat)
  | recheck
  | reacquire
  | critCheck
  | fetchNet
  | writeStaging
  | renameStaging
  | releaseAfterFetch
  | releaseNoFetch
  | done (q : POut)
deriving DecidableEq, Repr

/-- One process: its program counter and whether it has performed the network
fetch (`urlopen`). -/
structure Proc where
  pc : PC
  fetched : Bool
deriving DecidableEq, Repr

/-- The shared filesystem: lock-file existence, binary existence, cache
directory existence, staging-file existence. -/
structure FS where
  lock : Bool
  bin : Bool
  dir : Bool
  tmp : Bool
deriving DecidableEq, Repr

/-- Global state: the shared filesystem plus every process's local state.
Processes beyond the population are parked in a terminal state. -/
structure Sys where
  fs : FS
  procs : Nat → Proc

/-- One atomic step of a single process, from the source of
`download_treefmt`. `acquire_lock` is the atomic `O_CREAT | O_EXCL` create:
it succeeds exactly when no lock file exists, creating it in the same step.
The rename publishes the binary and removes the staging file atomically.
Released lock files and terminal states never step. The fetch is modelled as
succeeding (the mocked-fetcher scenario of the claim). -/
def pstep (e : Env) (p : Proc) (g : FS) : Proc × FS :=
  match p.pc with
  | .check =>
    (⟨if g.bin then .done (.path .fastPath (binaryPath e)) else .mkdirStep, p.fetched⟩, g)
  | .mkdirStep => (⟨.acquireStep, p.fetched⟩, { g with dir := true })
  | .acquireStep =>
    if g.lock then (⟨.waitPoll 601, p.fetched⟩, g)
    else (⟨.critCheck, p.fetched⟩, { g with lock := true })
  | .waitPoll fuel =>
    if g.lock = false then (⟨.recheck, p.fetched⟩, g)
    else
      match fuel with
      | 0 => (⟨.done .timeout, p.fetched⟩, g)
      | f + 1 => (⟨.waitPoll f, p.fetched⟩, g)
  | .recheck =>
    (⟨if g.bin then .done (.path .waitingPath (binaryPath e)) else .reacquire, p.fetched⟩, g)
  | .reacquire =>
    if g.lock then (⟨.done .acqFail, p.fetched⟩, g)
    else (⟨.critCheck, p.fetched⟩, { g with lock := true })
  | .critCheck =>
    (⟨if g.bin then .releaseNoFetch else .fetchNet, p.fetched⟩, g)
  | .fetchNet => (⟨.writeStaging, true⟩, g)
  | .writeStaging => (⟨.renameStaging, p.fetched⟩, { g with tmp := true })
  | .renameStaging => (⟨.releaseAfterFetch, p.fetched⟩, { g with tmp := false, bin := true })
  | .releaseAfterFetch =>
    (⟨.done (.path .fetcher (binaryPath e)), p.fetched⟩, { g with lock := false })
  | .releaseNoFetch =>
    (⟨.done (.path .doubleCheck (binaryPath e)), p.fetched⟩, { g with lock := false })
  | .done q => (⟨.done q, p.fetched⟩, g)

/-- Schedule process `i` for one step. -/
def stepIdx (e : Env) (s : Sys) (i : Nat) : Sys :=
  ⟨(pstep e (s.procs i) s.fs).2, Function.update s.procs i (pstep e (s.procs i) s.fs).1⟩

/-- Run an arbitrary interleaving schedule (a list of process indices). -/
def runSched (e : Env) (s : Sys) : List Nat → Sys
  | [] => s
  | i :: rest => runSched e (stepIdx e s i) rest

/-- `n` processes all about to call `download_treefmt` on an empty cache. -/
def initCold (n : Nat) : Sys :=
  ⟨⟨false, false, false, false⟩,
    fun i => if i < n then ⟨.check, false⟩ else ⟨.done .acqFail, false⟩⟩

/-- As `initCold` but the binary is already installed (warm cache). -/
def initWarm (n : Nat) : Sys :=
  ⟨⟨false, true, false, false⟩,
    fun i => if i < n then ⟨.check, false⟩ else ⟨.done .acqFail, false⟩⟩

/-- Program points at which the process holds the lock (from its own
successful exclusive create up to its release). -/
def isHolder : PC → Bool
  | .critCheck | .fetchNet | .writeStaging | .renameStaging
  | .releaseAfterFetch | .releaseNoFetch => true
  | _ => false

/-- Program points strictly between the double-check that found no binary and
the publishing rename. -/
def noBinYet : PC → Bool
  | .fetchNet | .writeStaging | .renameStaging => true
  | _ => false

/-- Program points a process can only occupy after its own rename published
the binary. -/
def postRename : PC → Bool
  | .releaseAfterFetch => true
  | .done (.path .fetcher _) => true
  | _ => false

/-- Program points a process occupies exactly when it has performed the
network fetch. -/
def fetchyPC : PC → Bool
  | .writeStaging | .renameStaging | .releaseAfterFetch => true
  | .done (.path .fetcher _) => true
  | _ => false

/-- The global invariant: (1) at most one lock holder; (2) the lock file
exists iff some process holds it; (3) while anyone is between double-check
and rename the binary is absent; (4) past a rename the binary is present;
(5) a process has fetched exactly at the program points after `urlopen`;
(6) at most one process ever fetches; (7) every returned path is the
deterministic binary path. -/
def Inv (e : Env) (s : Sys) : Prop :=
  (∀ i j, isHolder (s.procs i).pc = true → isHolder (s.procs j).pc = true → i = j) ∧
  (s.fs.lock = true ↔ ∃ i, isHolder (s.procs i).pc = true) ∧
  (∀ i, noBinYet (s.procs i).pc = true → s.fs.bin = false) ∧
  (∀ i, postRename (s.procs i).pc = true → s.fs.bin = true) ∧
  (∀ i, (s.procs i).fetched = fetchyPC (s.procs i).pc) ∧
  (∀ i j, (s.procs i).fetched = true → (s.procs j).fetched = true → i = j) ∧
  (∀ i t p, (s.procs i).pc = .done (.path t p) → p = binaryPath e)

end Concurrent

namespace Concurrent

/-- A fetch-flagged program point is either inside the lock-held region or
past the publishing rename. -/
theorem fetchy_holder_or_postRename (pc : PC) (h : fetchyPC pc = true) :
    isHolder pc = true ∨ postRename pc = true := by
  rcases pc with _ | _ | _ | fuel | _ | _ | _ | _ | _ | _ | _ | _ | q
  case done =>
    rcases q with ⟨t, p⟩ | _ | _
    · rcases t <;> simp_all [fetchyPC, isHolder, postRename]
    · simp [fetchyPC] at h
    · simp [fetchyPC] at h
  all_goals simp_all [fetchyPC, isHolder, postRename]

/-- Between double-check and rename the process holds the lock. -/
theorem noBinYet_holder (pc : PC) (h : noBinYet pc = true) : isHolder pc = true := by
  rcases pc with _ | _ | _ | fuel | _ | _ | _ | _ | _ | _ | _ | _ | q <;>
    simp_all [noBinYet, isHolder]

/-- Invariant preservation for steps that keep the process outside the
lock-held region and leave the lock, the binary and the fetch flag unchanged. -/
theorem inv_update_benign (e : Env) (s : Sys) (i : Nat) (h : Inv e s)
    (p' : Proc) (g' : FS)
    (hlock : g'.lock = s.fs.lock) (hbin : g'.bin = s.fs.bin)
    (hh0 : isHolder (s.procs i).pc = false)
    (hh : isHolder p'.pc = false)
    (hnb : noBinYet p'.pc = false)
    (hpr : postRename p'.pc = false)
    (hfet : p'.fetched = (s.procs i).fetched)
    (hfetchy : fetchyPC p'.pc = fetchyPC (s.procs i).pc)
    (hpay : ∀ t p, p'.pc = .done (.path t p) → p = binaryPath e) :
    Inv e ⟨g', Function.update s.procs i p'⟩ := by
  obtain ⟨h1, h2, h3, h4, h5, h6, h7⟩ := h
  refine ⟨?_, ?_, ?_, ?_, ?_, ?_, ?_⟩ <;> dsimp only
  · intro a b ha hb
    rw [Function.update_apply] at ha hb
    by_cases hai : a = i
    · rw [if_pos hai, hh] at ha; exact absurd ha (by simp)
    · rw [if_neg hai] at ha
      by_cases hbi : b = i
      · rw [if_pos hbi, hh] at hb; exact absurd hb (by simp)
      · rw [if_neg hbi] at hb; exact h1 a b ha hb
  · rw [hlock]
    constructor
    · intro hl
      obtain ⟨j, hj⟩ := h2.mp hl
      have hji : j ≠ i := by rintro rfl; rw [hh0] at hj; exact absurd hj (by simp)
      exact ⟨j, by rw [Function.update_apply, if_neg hji]; exact hj⟩
    · rintro ⟨j, hj⟩
      rw [Function.update_apply] at hj
      by_cases hji : j = i
      · rw [if_pos hji, hh] at hj; exact absurd hj (by simp)
      · rw [if_neg hji] at hj; exact h2.mpr ⟨j, hj⟩
  · intro a ha
    rw [Function.update_apply] at ha
    by_cases hai : a = i
    · rw [if_pos hai, hnb] at ha; exact absurd ha (by simp)
    · rw [if_neg hai] at ha; rw [hbin]; exact h3 a ha
  · intro a ha
    rw [Function.update_apply] at ha
    by_cases hai : a = i
    · rw [if_pos hai, hpr] at ha; exact absurd ha (by simp)
    · rw [if_neg hai] at ha; rw [hbin]; exact h4 a ha
  · intro a
    rw [Function.update_apply]
    by_cases hai : a = i
    · rw [if_pos hai, hfet, hfetchy]; exact h5 i
    · rw [if_neg hai]; exact h5 a
  · intro a b ha hb
    rw [Function.update_apply] at ha hb
    by_cases hai : a = i
    · subst hai
      rw [if_pos rfl] at ha
      by_cases hbi : b = a
      · exact hbi.symm
      · rw [if_neg hbi] at hb
        exact h6 a b (hfet.symm.trans ha) hb
    · rw [if_neg hai] at ha
      by_cases hbi : b = i
      · subst hbi
        rw [if_pos rfl] at hb
        exact h6 a b ha (hfet.symm.trans hb)
      · rw [if_neg hbi] at hb; exact h6 a b ha hb
  · intro a t p hp
    rw [Function.update_apply] at hp
    by_cases hai : a = i
    · rw [if_pos hai] at hp; exact hpay t p hp
    · rw [if_neg hai] at hp; exact h7 a t p hp

/-- Invariant preservation for steps of the lock holder that keep it inside
the lock-held region and leave the lock, the binary and the fetch flag
unchanged. -/
theorem inv_update_holder (e : Env) (s : Sys) (i : Nat) (h : Inv e s)
    (p' : Proc) (g' : FS)
    (hlock : g'.lock = s.fs.lock) (hbin : g'.bin = s.fs.bin)
    (hh0 : isHolder (s.procs i).pc = true)
    (hh : isHolder p'.pc = true)
    (hnb : noBinYet p'.pc = true → s.fs.bin = false)
    (hpr : postRename p'.pc = true → s.fs.bin = true)
    (hfet : p'.fetched = (s.procs i).fetched)
    (hfetchy : fetchyPC p'.pc = fetchyPC (s.procs i).pc) :
    Inv e ⟨g', Function.update s.procs i p'⟩ := by
  obtain ⟨h1, h2, h3, h4, h5, h6, h7⟩ := h
  refine ⟨?_, ?_, ?_, ?_, ?_, ?_, ?_⟩ <;> dsimp only
  · intro a b ha hb
    rw [Function.update_apply] at ha hb
    by_cases hai : a = i
    · by_cases hbi : b = i
      · rw [hai, hbi]
      · rw [if_neg hbi] at hb
        exact absurd (h1 b i hb hh0) hbi
    · rw [if_neg hai] at ha
      by_cases hbi : b = i
      · exact absurd (h1 a i ha hh0) hai
      · rw [if_neg hbi] at hb; exact h1 a b ha hb
  · rw [hlock]
    constructor
    · intro _
      exact ⟨i, by rw [Function.update_apply, if_pos rfl]; exact hh⟩
    · intro _
      exact h2.mpr ⟨i, hh0⟩
  · intro a ha
    rw [Function.update_apply] at ha
    by_cases hai : a = i
    · rw [if_pos hai] at ha; rw [hbin]; exact hnb ha
    · rw [if_neg hai] at ha; rw [hbin]; exact h3 a ha
  · intro a ha
    rw [Function.update_apply] at ha
    by_cases hai : a = i
    · rw [if_pos hai] at ha; rw [hbin]; exact hpr ha
    · rw [if_neg hai] at ha; rw [hbin]; exact h4 a ha
  · intro a
    rw [Function.update_apply]
    by_cases hai : a = i
    · rw [if_pos hai, hfet, hfetchy]; exact h5 i
    · rw [if_neg hai]; exact h5 a
  · intro a b ha hb
    rw [Function.update_apply] at ha hb
    by_cases hai : a = i
    · subst hai
      rw [if_pos rfl] at ha
      by_cases hbi : b = a
      · exact hbi.symm
      · rw [if_neg hbi] at hb
        exact h6 a b (hfet.symm.trans ha) hb
    · rw [if_neg hai] at ha
      by_cases hbi : b = i
      · subst hbi
        rw [if_pos rfl] at hb
        exact h6 a b ha (hfet.symm.trans hb)
      · rw [if_neg hbi] at hb; exact h6 a b ha hb
  · intro a t p hp
    rw [Function.update_apply] at hp
    by_cases hai : a = i
    · rw [if_pos hai] at hp
      rw [hp] at hh
      simp [isHolder] at hh
    · rw [if_neg hai] at hp; exact h7 a t p hp

end Concurrent

namespace Concurrent

/-- Invariant preservation for a successful exclusive lock-file creation
(the `O_CREAT | O_EXCL` open succeeding because no lock file exists). -/
theorem inv_update_acquire (e : Env) (s : Sys) (i : Nat) (h : Inv e s)
    (hh0 : isHolder (s.procs i).pc = false)
    (hfy0 : fetchyPC (s.procs i).pc = false)
    (hl : s.fs.lock = false) :
    Inv e ⟨{ s.fs with lock := true },
      Function.update s.procs i ⟨.critCheck, (s.procs i).fetched⟩⟩ := by
  obtain ⟨h1, h2, h3, h4, h5, h6, h7⟩ := h
  have hnoh : ∀ j, isHolder (s.procs j).pc = false := by
    intro j
    by_contra hj
    rw [Bool.not_eq_false] at hj
    have hlt := h2.mpr ⟨j, hj⟩
    rw [hl] at hlt
    exact absurd hlt (by simp)
  refine ⟨?_, ?_, ?_, ?_, ?_, ?_, ?_⟩ <;> dsimp only
  · intro a b ha hb
    rw [Function.update_apply] at ha hb
    by_cases hai : a = i
    · by_cases hbi : b = i
      · rw [hai, hbi]
      · rw [if_neg hbi, hnoh b] at hb
        exact absurd hb (by simp)
    · rw [if_neg hai, hnoh a] at ha
      exact absurd ha (by simp)
  · constructor
    · intro _
      exact ⟨i, by rw [Function.update_apply, if_pos rfl]; rfl⟩
    · intro _
      rfl
  · intro a ha
    rw [Function.update_apply] at ha
    by_cases hai : a = i
    · rw [if_pos hai] at ha
      simp [noBinYet] at ha
    · rw [if_neg hai] at ha
      exact h3 a ha
  · intro a ha
    rw [Function.update_apply] at ha
    by_cases hai : a = i
    · rw [if_pos hai] at ha
      simp [postRename] at ha
    · rw [if_neg hai] at ha
      exact h4 a ha
  · intro a
    rw [Function.update_apply]
    by_cases hai : a = i
    · rw [if_pos hai]
      exact (h5 i).trans hfy0
    · rw [if_neg hai]
      exact h5 a
  · intro a b ha hb
    rw [Function.update_apply] at ha hb
    by_cases hai : a = i
    · subst hai
      rw [if_pos rfl] at ha
      rw [show ((⟨.critCheck, (s.procs a).fetched⟩ : Proc)).fetched = (s.procs a).fetched from rfl,
        (h5 a).trans hfy0] at ha
      exact absurd ha (by simp)
    · rw [if_neg hai] at ha
      by_cases hbi : b = i
      · subst hbi
        rw [if_pos rfl] at hb
        rw [show ((⟨.critCheck, (s.procs b).fetched⟩ : Proc)).fetched = (s.procs b).fetched from rfl,
          (h5 b).trans hfy0] at hb
        exact absurd hb (by simp)
      · rw [if_neg hbi] at hb
        exact h6 a b ha hb
  · intro a t p hp
    rw [Function.update_apply] at hp
    by_cases hai : a = i
    · rw [if_pos hai] at hp
      simp at hp
    · rw [if_neg hai] at hp
      exact h7 a t p hp

/-- Invariant preservation for the `urlopen` fetch step: the lock holder at
the fetch point marks itself fetched; nobody else has fetched before. -/
theorem inv_update_fetchNet (e : Env) (s : Sys) (i : Nat) (h : Inv e s)
    (hpc : (s.procs i).pc = .fetchNet) :
    Inv e ⟨s.fs, Function.update s.procs i ⟨.writeStaging, true⟩⟩ := by
  obtain ⟨h1, h2, h3, h4, h5, h6, h7⟩ := h
  have hh0 : isHolder (s.procs i).pc = true := by rw [hpc]; rfl
  have hbin0 : s.fs.bin = false := h3 i (by rw [hpc]; rfl)
  refine ⟨?_, ?_, ?_, ?_, ?_, ?_, ?_⟩ <;> dsimp only
  · intro a b ha hb
    rw [Function.update_apply] at ha hb
    by_cases hai : a = i
    · by_cases hbi : b = i
      · rw [hai, hbi]
      · rw [if_neg hbi] at hb
        exact absurd (h1 b i hb hh0) hbi
    · rw [if_neg hai] at ha
      by_cases hbi : b = i
      · exact absurd (h1 a i ha hh0) hai
      · rw [if_neg hbi] at hb
        exact h1 a b ha hb
  · constructor
    · intro _
      exact ⟨i, by rw [Function.update_apply, if_pos rfl]; rfl⟩
    · intro _
      exact h2.mpr ⟨i, hh0⟩
  · intro a ha
    rw [Function.update_apply] at ha
    by_cases hai : a = i
    · exact hbin0
    · rw [if_neg hai] at ha
      exact h3 a ha
  · intro a ha
    rw [Function.update_apply] at ha
    by_cases hai : a = i
    · rw [if_pos hai] at ha
      simp [postRename] at ha
    · rw [if_neg hai] at ha
      have hb4 := h4 a ha
      rw [hbin0] at hb4
      exact absurd hb4 (by simp)
  · intro a
    rw [Function.update_apply]
    by_cases hai : a = i
    · rw [if_pos hai]; rfl
    · rw [if_neg hai]
      exact h5 a
  · intro a b ha hb
    rw [Function.update_apply] at ha hb
    by_cases hai : a = i
    · subst hai
      by_cases hbi : b = a
      · exact hbi.symm
      · rw [if_neg hbi] at hb
        have hfb : fetchyPC (s.procs b).pc = true := (h5 b).symm.trans hb
        rcases fetchy_holder_or_postRename _ hfb with hold | hpost
        · exact (h1 b a hold hh0).symm
        · have hb4 := h4 b hpost
          rw [hbin0] at hb4
          exact absurd hb4 (by simp)
    · rw [if_neg hai] at ha
      by_cases hbi : b = i
      · subst hbi
        have hfa : fetchyPC (s.procs a).pc = true := (h5 a).symm.trans ha
        rcases fetchy_holder_or_postRename _ hfa with hold | hpost
        · exact h1 a b hold hh0
        · have hb4 := h4 a hpost
          rw [hbin0] at hb4
          exact absurd hb4 (by simp)
      · rw [if_neg hbi] at hb
        exact h6 a b ha hb
  · intro a t p hp
    rw [Function.update_apply] at hp
    by_cases hai : a = i
    · rw [if_pos hai] at hp
      simp at hp
    · rw [if_neg hai] at hp
      exact h7 a t p hp

end Concurrent

namespace Concurrent

/-- Invariant preservation for the atomic rename publishing the binary. -/
theorem inv_update_rename (e : Env) (s : Sys) (i : Nat) (h : Inv e s)
    (hpc : (s.procs i).pc = .renameStaging) :
    Inv e ⟨{ s.fs with tmp := false, bin := true },
      Function.update s.procs i ⟨.releaseAfterFetch, (s.procs i).fetched⟩⟩ := by
  obtain ⟨h1, h2, h3, h4, h5, h6, h7⟩ := h
  have hh0 : isHolder (s.procs i).pc = true := by rw [hpc]; rfl
  refine ⟨?_, ?_, ?_, ?_, ?_, ?_, ?_⟩ <;> dsimp only
  · intro a b ha hb
    rw [Function.update_apply] at ha hb
    by_cases hai : a = i
    · by_cases hbi : b = i
      · rw [hai, hbi]
      · rw [if_neg hbi] at hb
        exact absurd (h1 b i hb hh0) hbi
    · rw [if_neg hai] at ha
      by_cases hbi : b = i
      · exact absurd (h1 a i ha hh0) hai
      · rw [if_neg hbi] at hb
        exact h1 a b ha hb
  · constructor
    · intro _
      exact ⟨i, by rw [Function.update_apply, if_pos rfl]; rfl⟩
    · intro _
      exact h2.mpr ⟨i, hh0⟩
  · intro a ha
    rw [Function.update_apply] at ha
    by_cases hai : a = i
    · rw [if_pos hai] at ha
      simp [noBinYet] at ha
    · rw [if_neg hai] at ha
      exact absurd (h1 a i (noBinYet_holder _ ha) hh0) hai
  · intro a _
    rfl
  · intro a
    rw [Function.update_apply]
    by_cases hai : a = i
    · rw [if_pos hai]
      exact (h5 i).trans (by rw [hpc]; rfl)
    · rw [if_neg hai]
      exact h5 a
  · intro a b ha hb
    rw [Function.update_apply] at ha hb
    by_cases hai : a = i
    · subst hai
      rw [if_pos rfl] at ha
      by_cases hbi : b = a
      · exact hbi.symm
      · rw [if_neg hbi] at hb
        exact h6 a b ha hb
    · rw [if_neg hai] at ha
      by_cases hbi : b = i
      · subst hbi
        rw [if_pos rfl] at hb
        exact h6 a b ha hb
      · rw [if_neg hbi] at hb
        exact h6 a b ha hb
  · intro a t p hp
    rw [Function.update_apply] at hp
    by_cases hai : a = i
    · rw [if_pos hai] at hp
      simp at hp
    · rw [if_neg hai] at hp
      exact h7 a t p hp

/-- Invariant preservation for the lock release after a completed install. -/
theorem inv_update_releaseA (e : Env) (s : Sys) (i : Nat) (h : Inv e s)
    (hpc : (s.procs i).pc = .releaseAfterFetch) :
    Inv e ⟨{ s.fs with lock := false },
      Function.update s.procs i ⟨.done (.path .fetcher (binaryPath e)), (s.procs i).fetched⟩⟩ := by
  obtain ⟨h1, h2, h3, h4, h5, h6, h7⟩ := h
  have hh0 : isHolder (s.procs i).pc = true := by rw [hpc]; rfl
  have hbin1 : s.fs.bin = true := h4 i (by rw [hpc]; rfl)
  refine ⟨?_, ?_, ?_, ?_, ?_, ?_, ?_⟩ <;> dsimp only
  · intro a b ha hb
    rw [Function.update_apply] at ha hb
    by_cases hai : a = i
    · rw [if_pos hai] at ha
      simp [isHolder] at ha
    · rw [if_neg hai] at ha
      by_cases hbi : b = i
      · exact absurd (h1 a i ha hh0) hai
      · rw [if_neg hbi] at hb
        exact h1 a b ha hb
  · constructor
    · intro hf
      exact absurd hf (by simp)
    · rintro ⟨j, hj⟩
      rw [Function.update_apply] at hj
      by_cases hji : j = i
      · rw [if_pos hji] at hj
        simp [isHolder] at hj
      · rw [if_neg hji] at hj
        exact absurd (h1 j i hj hh0) hji
  · intro a ha
    rw [Function.update_apply] at ha
    by_cases hai : a = i
    · rw [if_pos hai] at ha
      simp [noBinYet] at ha
    · rw [if_neg hai] at ha
      exact absurd (h1 a i (noBinYet_holder _ ha) hh0) hai
  · intro a _
    exact hbin1
  · intro a
    rw [Function.update_apply]
    by_cases hai : a = i
    · rw [if_pos hai]
      exact (h5 i).trans (by rw [hpc]; rfl)
    · rw [if_neg hai]
      exact h5 a
  · intro a b ha hb
    rw [Function.update_apply] at ha hb
    by_cases hai : a = i
    · subst hai
      rw [if_pos rfl] at ha
      by_cases hbi : b = a
      · exact hbi.symm
      · rw [if_neg hbi] at hb
        exact h6 a b ha hb
    · rw [if_neg hai] at ha
      by_cases hbi : b = i
      · subst hbi
        rw [if_pos rfl] at hb
        exact h6 a b ha hb
      · rw [if_neg hbi] at hb
        exact h6 a b ha hb
  · intro a t p hp
    rw [Function.update_apply] at hp
    by_cases hai : a = i
    · rw [if_pos hai] at hp
      injection hp with hq
      injection hq with ht hp2
      exact hp2.symm
    · rw [if_neg hai] at hp
      exact h7 a t p hp

/-- Invariant preservation for the lock release on the double-check path
(binary found already present under the lock; no fetch was performed). -/
theorem inv_update_releaseB (e : Env) (s : Sys) (i : Nat) (h : Inv e s)
    (hpc : (s.procs i).pc = .releaseNoFetch) :
    Inv e ⟨{ s.fs with lock := false },
      Function.update s.procs i ⟨.done (.path .doubleCheck (binaryPath e)), (s.procs i).fetched⟩⟩ := by
  obtain ⟨h1, h2, h3, h4, h5, h6, h7⟩ := h
  have hh0 : isHolder (s.procs i).pc = true := by rw [hpc]; rfl
  refine ⟨?_, ?_, ?_, ?_, ?_, ?_, ?_⟩ <;> dsimp only
  · intro a b ha hb
    rw [Function.update_apply] at ha hb
    by_cases hai : a = i
    · rw [if_pos hai] at ha
      simp [isHolder] at ha
    · rw [if_neg hai] at ha
      by_cases hbi : b = i
      · exact absurd (h1 a i ha hh0) hai
      · rw [if_neg hbi] at hb
        exact h1 a b ha hb
  · constructor
    · intro hf
      exact absurd hf (by simp)
    · rintro ⟨j, hj⟩
      rw [Function.update_apply] at hj
      by_cases hji : j = i
      · rw [if_pos hji] at hj
        simp [isHolder] at hj
      · rw [if_neg hji] at hj
        exact absurd (h1 j i hj hh0) hji
  · intro a ha
    rw [Function.update_apply] at ha
    by_cases hai : a = i
    · rw [if_pos hai] at ha
      simp [noBinYet] at ha
    · rw [if_neg hai] at ha
      exact absurd (h1 a i (noBinYet_holder _ ha) hh0) hai
  · intro a ha
    rw [Function.update_apply] at ha
    by_cases hai : a = i
    · rw [if_pos hai] at ha
      simp [postRename] at ha
    · rw [if_neg hai] at ha
      exact h4 a ha
  · intro a
    rw [Function.update_apply]
    by_cases hai : a = i
    · rw [if_pos hai]
      exact (h5 i).trans (by rw [hpc]; rfl)
    · rw [if_neg hai]
      exact h5 a
  · intro a b ha hb
    rw [Function.update_apply] at ha hb
    by_cases hai : a = i
    · subst hai
      rw [if_pos rfl] at ha
      by_cases hbi : b = a
      · exact hbi.symm
      · rw [if_neg hbi] at hb
        exact h6 a b ha hb
    · rw [if_neg hai] at ha
      by_cases hbi : b = i
      · subst hbi
        rw [if_pos rfl] at hb
        exact h6 a b ha hb
      · rw [if_neg hbi] at hb
        exact h6 a b ha hb
  · intro a t p hp
    rw [Function.update_apply] at hp
    by_cases hai : a = i
    · rw [if_pos hai] at hp
      injection hp with hq
      injection hq with ht hp2
      exact hp2.symm
    · rw [if_neg hai] at hp
      exact h7 a t p hp

/-- Scheduling a terminated process leaves the state unchanged. -/
theorem stepIdx_done (e : Env) (s : Sys) (i : Nat) (q : POut)
    (hpc : (s.procs i).pc = .done q) : stepIdx e s i = s := by
  unfold stepIdx pstep
  rw [hpc]
  dsimp only
  have hp : (⟨.done q, (s.procs i).fetched⟩ : Proc) = s.procs i := by rw [← hpc]
  rw [hp, Function.update_eq_self]

end Concurrent

namespace Concurrent

/-- The invariant is preserved by every step of every process. -/
theorem inv_step (e : Env) (s : Sys) (i : Nat) (h : Inv e s) :
    Inv e (stepIdx e s i) := by
  rcases hpc : (s.procs i).pc with _ | _ | _ | fuel | _ | _ | _ | _ | _ | _ | _ | _ | q
  case check =>
    cases hbin : s.fs.bin
    · have hstep : stepIdx e s i =
          ⟨s.fs, Function.update s.procs i ⟨.mkdirStep, (s.procs i).fetched⟩⟩ := by
        unfold stepIdx pstep; rw [hpc, hbin]; rfl
      rw [hstep]
      exact inv_update_benign e s i h _ _ rfl rfl (by rw [hpc]; rfl) rfl rfl rfl rfl
        (by rw [hpc]; rfl) (by intro t p hp; cases hp)
    · have hstep : stepIdx e s i =
          ⟨s.fs, Function.update s.procs i
            ⟨.done (.path .fastPath (binaryPath e)), (s.procs i).fetched⟩⟩ := by
        unfold stepIdx pstep; rw [hpc, hbin]; rfl
      rw [hstep]
      exact inv_update_benign e s i h _ _ rfl rfl (by rw [hpc]; rfl) rfl rfl rfl rfl
        (by rw [hpc]; rfl)
        (by intro t p hp; injection hp with hq; injection hq with ht hp2; exact hp2.symm)
  case mkdirStep =>
    have hstep : stepIdx e s i =
        ⟨{ s.fs with dir := true },
          Function.update s.procs i ⟨.acquireStep, (s.procs i).fetched⟩⟩ := by
      unfold stepIdx pstep; rw [hpc]
    rw [hstep]
    exact inv_update_benign e s i h _ _ rfl rfl (by rw [hpc]; rfl) rfl rfl rfl rfl
      (by rw [hpc]; rfl) (by intro t p hp; cases hp)
  case acquireStep =>
    cases hlk : s.fs.lock
    · have hstep : stepIdx e s i =
          ⟨{ s.fs with lock := true },
            Function.update s.procs i ⟨.critCheck, (s.procs i).fetched⟩⟩ := by
        unfold stepIdx pstep; rw [hpc, hlk]; rfl
      rw [hstep]
      exact inv_update_acquire e s i h (by rw [hpc]; rfl) (by rw [hpc]; rfl) hlk
    · have hstep : stepIdx e s i =
          ⟨s.fs, Function.update s.procs i ⟨.waitPoll 601, (s.procs i).fetched⟩⟩ := by
        unfold stepIdx pstep; rw [hpc, hlk]; rfl
      rw [hstep]
      exact inv_update_benign e s i h _ _ rfl rfl (by rw [hpc]; rfl) rfl rfl rfl rfl
        (by rw [hpc]; rfl) (by intro t p hp; cases hp)
  case waitPoll =>
    cases hlk : s.fs.lock
    · have hstep : stepIdx e s i =
          ⟨s.fs, Function.update s.procs i ⟨.recheck, (s.procs i).fetched⟩⟩ := by
        unfold stepIdx pstep; rw [hpc, hlk]; rfl
      rw [hstep]
      exact inv_update_benign e s i h _ _ rfl rfl (by rw [hpc]; rfl) rfl rfl rfl rfl
        (by rw [hpc]; rfl) (by intro t p hp; cases hp)
    · cases fuel with
      | zero =>
        have hstep : stepIdx e s i =
            ⟨s.fs, Function.update s.procs i ⟨.done .timeout, (s.procs i).fetched⟩⟩ := by
          unfold stepIdx pstep; rw [hpc, hlk]; rfl
        rw [hstep]
        exact inv_update_benign e s i h _ _ rfl rfl (by rw [hpc]; rfl) rfl rfl rfl rfl
          (by rw [hpc]; rfl) (by intro t p hp; injection hp with hq; cases hq)
      | succ f =>
        have hstep : stepIdx e s i =
            ⟨s.fs, Function.update s.procs i ⟨.waitPoll f, (s.procs i).fetched⟩⟩ := by
          unfold stepIdx pstep; rw [hpc, hlk]; rfl
        rw [hstep]
        exact inv_update_benign e s i h _ _ rfl rfl (by rw [hpc]; rfl) rfl rfl rfl rfl
          (by rw [hpc]; rfl) (by intro t p hp; cases hp)
  case recheck =>
    cases hbin : s.fs.bin
    · have hstep : stepIdx e s i =
          ⟨s.fs, Function.update s.procs i ⟨.reacquire, (s.procs i).fetched⟩⟩ := by
        unfold stepIdx pstep; rw [hpc, hbin]; rfl
      rw [hstep]
      exact inv_update_benign e s i h _ _ rfl rfl (by rw [hpc]; rfl) rfl rfl rfl rfl
        (by rw [hpc]; rfl) (by intro t p hp; cases hp)
    · have hstep : stepIdx e s i =
          ⟨s.fs, Function.update s.procs i
            ⟨.done (.path .waitingPath (binaryPath e)), (s.procs i).fetched⟩⟩ := by
        unfold stepIdx pstep; rw [hpc, hbin]; rfl
      rw [hstep]
      exact inv_update_benign e s i h _ _ rfl rfl (by rw [hpc]; rfl) rfl rfl rfl rfl
        (by rw [hpc]; rfl)
        (by intro t p hp; injection hp with hq; injection hq with ht hp2; exact hp2.symm)
  case reacquire =>
    cases hlk : s.fs.lock
    · have hstep : stepIdx e s i =
          ⟨{ s.fs with lock := true },
            Function.update s.procs i ⟨.critCheck, (s.procs i).fetched⟩⟩ := by
        unfold stepIdx pstep; rw [hpc, hlk]; rfl
      rw [hstep]
      exact inv_update_acquire e s i h (by rw [hpc]; rfl) (by rw [hpc]; rfl) hlk
    · have hstep : stepIdx e s i =
          ⟨s.fs, Function.update s.procs i ⟨.done .acqFail, (s.procs i).fetched⟩⟩ := by
        unfold stepIdx pstep; rw [hpc, hlk]; rfl
      rw [hstep]
      exact inv_update_benign e s i h _ _ rfl rfl (by rw [hpc]; rfl) rfl rfl rfl rfl
        (by rw [hpc]; rfl) (by intro t p hp; injection hp with hq; cases hq)
  case critCheck =>
    cases hbin : s.fs.bin
    · have hstep : stepIdx e s i =
          ⟨s.fs, Function.update s.procs i ⟨.fetchNet, (s.procs i).fetched⟩⟩ := by
        unfold stepIdx pstep; rw [hpc, hbin]; rfl
      rw [hstep]
      exact inv_update_holder e s i h _ _ rfl rfl (by rw [hpc]; rfl) rfl
        (fun _ => hbin) (by intro hq; simp [postRename] at hq) rfl (by rw [hpc]; rfl)
    · have hstep : stepIdx e s i =
          ⟨s.fs, Function.update s.procs i ⟨.releaseNoFetch, (s.procs i).fetched⟩⟩ := by
        unfold stepIdx pstep; rw [hpc, hbin]; rfl
      rw [hstep]
      exact inv_update_holder e s i h _ _ rfl rfl (by rw [hpc]; rfl) rfl
        (by intro hq; simp [noBinYet] at hq) (by intro hq; simp [postRename] at hq)
        rfl (by rw [hpc]; rfl)
  case fetchNet =>
    have hstep : stepIdx e s i =
        ⟨s.fs, Function.update s.procs i ⟨.writeStaging, true⟩⟩ := by
      unfold stepIdx pstep; rw [hpc]
    rw [hstep]
    exact inv_update_fetchNet e s i h hpc
  case writeStaging =>
    have hstep : stepIdx e s i =
        ⟨{ s.fs with tmp := true },
          Function.update s.procs i ⟨.renameStaging, (s.procs i).fetched⟩⟩ := by
      unfold stepIdx pstep; rw [hpc]
    rw [hstep]
    exact inv_update_holder e s i h _ _ rfl rfl (by rw [hpc]; rfl) rfl
      (fun _ => h.2.2.1 i (by rw [hpc]; rfl)) (by intro hq; simp [postRename] at hq)
      rfl (by rw [hpc]; rfl)
  case renameStaging =>
    have hstep : stepIdx e s i =
        ⟨{ s.fs with tmp := false, bin := true },
          Function.update s.procs i ⟨.releaseAfterFetch, (s.procs i).fetched⟩⟩ := by
      unfold stepIdx pstep; rw [hpc]
    rw [hstep]
    exact inv_update_rename e s i h hpc
  case releaseAfterFetch =>
    have hstep : stepIdx e s i =
        ⟨{ s.fs with lock := false },
          Function.update s.procs i
            ⟨.done (.path .fetcher (binaryPath e)), (s.procs i).fetched⟩⟩ := by
      unfold stepIdx pstep; rw [hpc]
    rw [hstep]
    exact inv_update_releaseA e s i h hpc
  case releaseNoFetch =>
    have hstep : stepIdx e s i =
        ⟨{ s.fs with lock := false },
          Function.update s.procs i
            ⟨.done (.path .doubleCheck (binaryPath e)), (s.procs i).fetched⟩⟩ := by
      unfold stepIdx pstep; rw [hpc]
    rw [hstep]
    exact inv_update_releaseB e s i h hpc
  case done =>
    rw [stepIdx_done e s i q hpc]
    exact h

/-- The invariant is preserved along any schedule. -/
theorem inv_runSched (e : Env) (sched : List Nat) :
    ∀ s, Inv e s → Inv e (runSched e s sched) := by
  induction sched with
  | nil => intro s h; exact h
  | cons i rest ih => intro s h; exact ih _ (inv_step e s i h)

/-- The cold-start state satisfies the invariant. -/
theorem inv_initCold (e : Env) (n : Nat) : Inv e (initCold n) := by
  refine ⟨?_, ?_, ?_, ?_, ?_, ?_, ?_⟩ <;> dsimp only [initCold]
  · intro a b ha hb
    exfalso
    by_cases hA : a < n <;> simp [hA, isHolder] at ha
  · constructor
    · intro hf
      exact absurd hf (by simp)
    · rintro ⟨j, hj⟩
      exfalso
      by_cases hJ : j < n <;> simp [hJ, isHolder] at hj
  · intro a _
    rfl
  · intro a ha
    exfalso
    by_cases hA : a < n <;> simp [hA, postRename] at ha
  · intro a
    by_cases hA : a < n <;> simp [hA, fetchyPC]
  · intro a b ha hb
    exfalso
    by_cases hA : a < n <;> simp [hA] at ha
  · intro a t p hp
    exfalso
    by_cases hA : a < n <;> simp [hA] at hp

end Concurrent

/-- A two-process interleaving: process 1 passes its fast-path check and
mkdir while the cache is empty, process 0 then runs the whole install, and
process 1 finally acquires the (released) lock and finds the binary at the
double-check. -/
def ceSched : List Nat := [1, 1, 0, 0, 0, 0, 0, 0, 0, 0, 1, 1, 1]

/-- C1 (amended): for every number of processes and every interleaving of
concurrent `download_treefmt` calls on an initially empty cache (with the
fetch modelled as succeeding), at most one process performs the network
fetch, and every process that returns a path returns the one deterministic
binary path, with the `fetcher` return site taken exactly by the process that
fetched — so every other successful invocation returned via the fast path,
the waiting path, or the under-lock double-check. -/
theorem concurrent_single_fetcher (e : Env) (n : Nat) (sched : List Nat) :
    (∀ i j,
      ((Concurrent.runSched e (Concurrent.initCold n) sched).procs i).fetched = true →
      ((Concurrent.runSched e (Concurrent.initCold n) sched).procs j).fetched = true →
      i = j) ∧
    (∀ i t p,
      ((Concurrent.runSched e (Concurrent.initCold n) sched).procs i).pc =
        .done (.path t p) →
      p = binaryPath e ∧
      (t = .fetcher ↔
        ((Concurrent.runSched e (Concurrent.initCold n) sched).procs i).fetched = true)) := by
  have hI := Concurrent.inv_runSched e sched (Concurrent.initCold n)
    (Concurrent.inv_initCold e n)
  obtain ⟨h1, h2, h3, h4, h5, h6, h7⟩ := hI
  refine ⟨h6, ?_⟩
  intro i t p hp
  refine ⟨h7 i t p hp, ?_, ?_⟩
  · intro ht
    subst ht
    rw [h5 i, hp]; rfl
  · intro hf
    have hfy := (h5 i).symm.trans hf
    rw [hp] at hfy
    cases t
    case fetcher => rfl
    all_goals simp [Concurrent.fetchyPC] at hfy

/-- Witness for C1 at the concrete two-process interleaving: process 0 is the
unique fetcher and its returned path is the deterministic binary path. -/
theorem concurrent_single_fetcher_witness :
    (0 : Nat) = 0 ∧ binaryPath envLinux = binaryPath envLinux :=
  ⟨(concurrent_single_fetcher envLinux 2 ceSched).1 0 0 rfl rfl,
    ((concurrent_single_fetcher envLinux 2 ceSched).2 0 .fetcher
      (binaryPath envLinux) rfl).1⟩

/-- C1 counterexample: in this interleaving process 1 succeeds *without*
fetching, but returns neither via the fast path nor via the waiting path —
it returns via the double-check after acquiring the already-released lock,
a return path the claim does not allow for non-fetching invocations. -/
theorem concurrent_doubleCheck_return :
    ((Concurrent.runSched envLinux (Concurrent.initCold 2) ceSched).procs 1).pc =
      .done (.path .doubleCheck (binaryPath envLinux)) ∧
    ((Concurrent.runSched envLinux (Concurrent.initCold 2) ceSched).procs 1).fetched
      = false ∧
    ((Concurrent.runSched envLinux (Concurrent.initCold 2) ceSched).procs 0).pc =
      .done (.path .fetcher (binaryPath envLinux)) :=
  ⟨rfl, rfl, rfl⟩

/-- Every arm of `download_treefmt` exits with no surviving lock file of its
own: the `finally: release_lock(lock_path)` covers both exits of the `try`
block, and the other paths never create the lock. -/
theorem download_ourLockLeft (e : Env) (o : Oracle) :
    (download_treefmt e o).ourLockLeft = false := by
  unfold download_treefmt
  by_cases hb : o.binaryExists1 = true
  · simp [hb]
  · simp only [hb]
    by_cases ha : o.acquire1 = true
    · simp [ha]
    · simp only [ha]
      rcases hw : wait_for_lock o.lockAt with t | t
      · simp [hw]
      · by_cases hb2 : o.binaryExists2 = true
        · simp [hw, hb2]
        · by_cases ha2 : o.acquire2 = true <;> simp [hw, hb2, ha2]

/-- Oracle: empty cache, lock acquired first try, clean install. -/
def oHappy : Oracle :=
  ⟨false, true, fun _ => false, false, false, false, .ok (), .ok (), .ok (), .ok (), .ok (), .ok ()⟩

/-- C3: whenever `download_treefmt` acquires the lock (enters Fetching), the
lock file is gone on every exit — returning the path or raising — because the
release sits in a `finally`; and in the concurrent model, once every process
has terminated (any schedule, any process count), no lock file remains. -/
theorem lock_always_released (e : Env) (o : Oracle)
    (_henter : (download_treefmt e o).enteredFetching = true) :
    (download_treefmt e o).ourLockLeft = false ∧
    (∀ n sched,
      (∀ j, ∃ q,
        ((Concurrent.runSched e (Concurrent.initCold n) sched).procs j).pc = .done q) →
      (Concurrent.runSched e (Concurrent.initCold n) sched).fs.lock = false) := by
  refine ⟨download_ourLockLeft e o, ?_⟩
  intro n sched hdone
  have hI := Concurrent.inv_runSched e sched (Concurrent.initCold n)
    (Concurrent.inv_initCold e n)
  obtain ⟨h1, h2, h3, h4, h5, h6, h7⟩ := hI
  by_contra hl
  rw [Bool.not_eq_false] at hl
  obtain ⟨j, hj⟩ := h2.mp hl
  obtain ⟨q, hq⟩ := hdone j
  rw [hq] at hj
  simp [Concurrent.isHolder] at hj

/-- Witness for C3 at a concrete oracle that acquires the lock and installs. -/
theorem lock_always_released_witness :
    (download_treefmt envLinux oHappy).ourLockLeft = false :=
  (lock_always_released envLinux oHappy rfl).1
